import Mathlib

/-!
Verification of the delPack directory cleaner (`main.go`) against its
design specification.

The filesystem is modelled as a finite tree of entries.  Each directory
carries a `readable` flag (modelling whether `ReadDir` on it succeeds) and
each file carries an `ok` flag (modelling whether `lstat` on it succeeds)
and a byte size.  Paths are lists of name components relative to the root
passed on the command line (`[]` is the root itself).

The traversals embed the Go standard library semantics actually exercised
by the program:
* `filepath.WalkDir` (scan phase): directory entries are delivered without
  a per-entry stat, a matched directory returns `filepath.SkipDir` before
  its children are read, an unreadable directory triggers a second callback
  invocation carrying the `ReadDir` error, and the callback's `nil` result
  lets the walk continue with the remaining siblings.
* `filepath.Walk` (size phase): every entry is stat'ed; the `dirSize`
  callback swallows every error (`return nil`), so the walk's returned
  error is threaded through explicitly and the accumulated sum survives
  any per-entry failure.
* `os.RemoveAll` (delete phase): removing a nonexistent path succeeds,
  removing an unreadable directory fails after removing whatever siblings
  it could, and a failed child removal leaves the parent directory in
  place.
-/

namespace DelPack

/-- A node of the modelled filesystem tree.  `file name ok size` is a
non-directory entry whose `lstat` succeeds iff `ok`; `dir name readable
children` is a directory whose `ReadDir` succeeds iff `readable`. -/
inductive Entry where
  | file (name : String) (ok : Bool) (size : Int)
  | dir (name : String) (readable : Bool) (children : List Entry)
deriving Repr

/-- Base name of an entry, what `d.Name()` returns. -/
def Entry.name : Entry → String
  | .file n _ _ => n
  | .dir n _ _ => n

/-- What `d.IsDir()` returns. -/
def Entry.isDir : Entry → Bool
  | .file _ _ _ => false
  | .dir _ _ _ => true

/-- Resolve a relative path below an entry (`[]` is the entry itself). -/
def Entry.sub : Entry → List String → Option Entry
  | e, [] => some e
  | .file _ _ _, _ :: _ => none
  | .dir _ _ cs, n :: rest =>
    match cs.find? (fun c => c.name == n) with
    | some c => c.sub rest
    | none => none

/-- `true` iff a list of names has no duplicates. -/
def nodupNames : List String → Bool
  | [] => true
  | n :: rest => !rest.contains n && nodupNames rest

mutual
/-- Well-formed tree: sibling names are distinct at every level (the
invariant every real directory tree satisfies). -/
def Entry.wfB : Entry → Bool
  | .file _ _ _ => true
  | .dir _ _ cs => nodupNames (cs.map Entry.name) && Entry.wfList cs

def Entry.wfList : List Entry → Bool
  | [] => true
  | c :: cs => Entry.wfB c && Entry.wfList cs
end

/-- `true` iff `p` is an initial segment of `q` (path `q` lies at or
beneath path `p`). -/
def pathLE : List String → List String → Bool
  | [], _ => true
  | _ :: _, [] => false
  | a :: p, b :: q => a == b && pathLE p q

/-! ## Scan phase: `filepath.WalkDir` with the candidate-collecting callback
(`main.go` lines 100-128). -/

/-- The mutable state shared by the walk callback: the candidate list
`dirsToDelete` and the (verbose-only) `scanErrors` notices.  Notices are
modelled by the path that failed, standing for the formatted message. -/
structure ScanState where
  dirsToDelete : List (List String)
  scanErrors : List (List String)
deriving Repr

mutual
/-- One `WalkDir` visit of `e`, whose full path is `p`, running the scan
callback: an error (`err != nil`) appends a notice only in verbose mode
and continues; a non-directory is skipped; a directory whose name is in
`targets` is recorded and `filepath.SkipDir` prevents descent (this
happens before `ReadDir`, so even an unreadable matched directory is
recorded without an error); otherwise the children are walked when
readable, and an unreadable directory produces the error callback. -/
def scanEntry (targets : List String) (verbose : Bool) :
    List String → Entry → ScanState → ScanState
  | _, .file _ _ _, s => s
  | p, .dir n readable cs, s =>
    if targets.contains n then
      { s with dirsToDelete := s.dirsToDelete ++ [p] }
    else if readable then
      scanChildren targets verbose p cs s
    else
      if verbose then { s with scanErrors := s.scanErrors ++ [p] } else s

/-- Walk the children of a directory at path `p` in order. -/
def scanChildren (targets : List String) (verbose : Bool) :
    List String → List Entry → ScanState → ScanState
  | _, [], s => s
  | p, c :: cs, s =>
      scanChildren targets verbose p cs
        (scanEntry targets verbose (p ++ [c.name]) c s)
end

mutual
/-- The candidate paths the scan walk produces below `e` (at path `p`),
as a pure function of the tree. -/
def cands (targets : List String) : List String → Entry → List (List String)
  | _, .file _ _ _ => []
  | p, .dir n readable cs =>
    if targets.contains n then [p]
    else if readable then candsList targets p cs
    else []

/-- Candidates produced by a list of children in order. -/
def candsList (targets : List String) :
    List String → List Entry → List (List String)
  | _, [] => []
  | p, c :: cs => cands targets (p ++ [c.name]) c ++ candsList targets p cs
end

mutual
/-- The inaccessible paths the scan walk encounters below `e` (at path
`p`): unreadable directories that are visited and not matched. -/
def errPaths (targets : List String) : List String → Entry → List (List String)
  | _, .file _ _ _ => []
  | p, .dir n readable cs =>
    if targets.contains n then []
    else if readable then errPathsList targets p cs
    else [p]

/-- Inaccessible paths below a list of children in order. -/
def errPathsList (targets : List String) :
    List String → List Entry → List (List String)
  | _, [] => []
  | p, c :: cs => errPaths targets (p ++ [c.name]) c ++ errPathsList targets p cs
end

/-- `true` iff the entry at path `p` below `e` is a directory whose base
name is in `targets` (the match test of the scan callback). -/
def isMatchedDirAt (targets : List String) (e : Entry) (p : List String) : Bool :=
  match e.sub p with
  | some x => x.isDir && targets.contains x.name
  | none => false

/-- `true` iff every proper initial segment of `p` resolves, below `e`, to
a readable directory whose name is not in `targets` — i.e. the scan walk
actually reaches and descends through every ancestor of `p`. -/
def clearTo (targets : List String) : Entry → List String → Bool
  | _, [] => true
  | .file _ _ _, _ :: _ => false
  | .dir nm r cs, n :: rest =>
    !targets.contains nm && r &&
      (match cs.find? (fun c => c.name == n) with
       | some c => clearTo targets c rest
       | none => false)

/-! ## Size phase: `dirSize` (`main.go` lines 325-337), a `filepath.Walk`
whose callback returns `nil` on error (skipping the entry), adds the size
of every non-directory entry, and returns `nil`.  The error the walk
would return is threaded explicitly (as a `Bool`: was a non-nil error
returned by the callback?), together with the `size` accumulator. -/

mutual
/-- Visit `e` with the `dirSize` callback, threading the accumulator.
A file whose `lstat` fails triggers the error callback (which returns
`nil`); an ok file adds its size; an unreadable directory triggers the
error callback and its children are skipped. -/
def walkSize : Entry → Int → Int × Bool
  | .file _ ok sz, size => if ok then (size + sz, false) else (size, false)
  | .dir _ readable cs, size =>
    if readable then walkSizeList cs size else (size, false)

/-- Visit a directory's children in order; a non-nil callback result would
abort the loop (it never occurs, since the callback always returns `nil`,
but the propagation is part of `filepath.Walk`). -/
def walkSizeList : List Entry → Int → Int × Bool
  | [], size => (size, false)
  | c :: cs, size =>
    let r := walkSize c size
    if r.2 then r else walkSizeList cs r.1
end

/-- `dirSize`: total size and returned error for the tree rooted at `e`. -/
def dirSize (e : Entry) : Int × Bool := walkSize e 0

mutual
/-- Sum of the sizes of the accessible non-directory entries of `e`: ok
files, not hidden behind an unreadable directory. -/
def sizeSum : Entry → Int
  | .file _ ok sz => if ok then sz else 0
  | .dir _ readable cs => if readable then sizeSumList cs else 0

/-- Sum of `sizeSum` over a list of children. -/
def sizeSumList : List Entry → Int
  | [] => 0
  | c :: cs => sizeSum c + sizeSumList cs
end

mutual
/-- Does the `filepath.Walk` traversal of `e` deliver at least one error
to its callback (a failed `lstat` or an unreadable directory)? -/
def walkErrs : Entry → Bool
  | .file _ ok _ => !ok
  | .dir _ readable cs => if readable then walkErrsList cs else true

/-- `walkErrs` over a list of children. -/
def walkErrsList : List Entry → Bool
  | [] => false
  | c :: cs => walkErrs c || walkErrsList cs
end

/-- `dirSize` as invoked by a size worker on candidate path `p` below the
root `r`: `filepath.Walk` on a path whose root `lstat` fails reports the
error to the callback (which swallows it) and returns `nil`, so a
vanished path yields `(0, nil)`. -/
def dirSizeAt (r : Entry) (p : List String) : Int × Bool :=
  match r.sub p with
  | some e => dirSize e
  | none => (0, false)

/-! ## Delete phase: `os.RemoveAll` (`main.go` lines 250-264). -/

mutual
/-- `os.RemoveAll` applied to the tree rooted at `e`: returns what remains
of `e` (`none` if fully removed) and whether an error is reported.  A
file is removed; a readable directory is removed iff all children could
be removed (removal of the other children still proceeds on a child
failure, and the non-empty directory then remains); an unreadable
directory cannot be emptied and remains with an error. -/
def removeEntry : Entry → Option Entry × Bool
  | .file _ _ _ => (none, false)
  | .dir n readable cs =>
    if readable then
      let r := removeList cs
      if r.2 then (some (.dir n readable r.1), true) else (none, false)
    else (some (.dir n readable cs), true)

/-- Remove a list of children, keeping those that could not be removed;
the error flag is set if any child reported one. -/
def removeList : List Entry → List Entry × Bool
  | [] => ([], false)
  | c :: cs =>
    let r := removeEntry c
    let rs := removeList cs
    (r.1.toList ++ rs.1, r.2 || rs.2)
end

mutual
/-- `os.RemoveAll` on path `p` below `e`: resolve the path (removing a
path that does not exist returns `nil` and changes nothing — the Go
convention) and remove the subtree found there. -/
def removeAt : Entry → List String → Option Entry × Bool
  | e, [] => removeEntry e
  | .file fn ok sz, _ :: _ => (some (.file fn ok sz), false)
  | .dir dn r cs, n :: rest =>
    let res := removeAtChildren cs n rest
    (some (.dir dn r res.1), res.2)

/-- Apply `removeAt` below the first child named `n` (no such child means
the path does not exist: no change, no error). -/
def removeAtChildren : List Entry → String → List String → List Entry × Bool
  | [], _, _ => ([], false)
  | c :: cs', n, rest =>
    if c.name == n then
      let r := removeAt c rest
      (r.1.toList ++ cs', r.2)
    else
      let rs := removeAtChildren cs' n rest
      (c :: rs.1, rs.2)
end

/-- The filesystem seen from the scan root: `none` once the root itself
has been removed. -/
def removeAtFS : Option Entry → List String → Option Entry × Bool
  | none, _ => (none, false)
  | some e, p => removeAt e p

/-- Path resolution from the (possibly removed) root. -/
def subFS (fs : Option Entry) (p : List String) : Option Entry :=
  fs.bind (fun e => e.sub p)

/-! ## Worker pools (`main.go` lines 153-199 and 242-291).

With `maxWorkers <= 0` the spawning loop `for i := 0; i < maxWorkers; i++`
starts no workers: the buffered work channel absorbs all sends, the
`WaitGroup` is already done, the results channel is closed at once and
the collection loop sees no results.  With `maxWorkers >= 1` every
submitted item is processed by exactly one worker and produces exactly
one result; only the arrival order at the results channel is
scheduling-dependent, modelled by the order list (a permutation of the
submission positions). -/

/-- A size-phase result (`sizeResult`): the worker sends the path it
processed together with the computed size, or size 0 with the error. -/
structure SizeRes where
  path : List String
  size : Int
  err : Bool
deriving Repr, DecidableEq

/-- The size-worker body (`main.go` lines 163-173) for path `p`. -/
def sizeResultFor (r : Entry) (p : List String) : SizeRes :=
  let res := dirSizeAt r p
  if res.2 then ⟨p, 0, true⟩ else ⟨p, res.1, false⟩

/-- All size-phase results in arrival order `order` (positions into
`dirs`); no workers, no results. -/
def sizePoolResults (r : Entry) (dirs : List (List String)) (w : Int)
    (order : List Nat) : List SizeRes :=
  if w ≤ 0 then []
  else order.filterMap (fun i => (dirs[i]?).map (sizeResultFor r))

/-- A delete-phase result (`deleteResult`): the candidate index and
whether `os.RemoveAll` failed. -/
structure DelRes where
  index : Nat
  err : Bool
deriving Repr, DecidableEq

/-- Run the deletions for the candidate indices in `order`, threading the
filesystem, collecting one tagged result per index. -/
def runDeletes (dirs : List (List String)) :
    Option Entry → List Nat → List DelRes × Option Entry
  | fs, [] => ([], fs)
  | fs, i :: rest =>
    match dirs[i]? with
    | none => runDeletes dirs fs rest
    | some p =>
      let r := removeAtFS fs p
      let rs := runDeletes dirs r.1 rest
      (⟨i, r.2⟩ :: rs.1, rs.2)

/-- The delete pool: no workers means no deletions and no results. -/
def deletePoolRun (fs : Option Entry) (dirs : List (List String)) (w : Int)
    (order : List Nat) : List DelRes × Option Entry :=
  if w ≤ 0 then ([], fs) else runDeletes dirs fs order

/-! ## Result collection and the orchestrator (`main`). -/

/-- The size-collection state (`totalSize`, `dirSizes`). -/
structure SizeTally where
  totalSize : Int
  dirSizes : List Int
deriving Repr, DecidableEq

/-- The collection loop of `main.go` lines 190-199: results are folded in
arrival order; an errored result counts as size 0; each size is appended
to `dirSizes` in arrival order. -/
def collectSizes (rs : List SizeRes) : SizeTally :=
  rs.foldl
    (fun acc r =>
      let sz := if r.err then 0 else r.size
      ⟨acc.totalSize + sz, acc.dirSizes ++ [sz]⟩)
    ⟨0, []⟩

/-- The delete-collection state (`deletedCount`, `deletedSize`, number of
entries of `deleteErrors`). -/
structure DelTally where
  deletedCount : Nat
  deletedSize : Int
  deleteErrors : Nat
deriving Repr, DecidableEq

/-- The collection loop of `main.go` lines 280-291: a failed result adds
an error entry; a successful one increments the count and adds
`dirSizes[result.index]` to the freed-bytes tally. -/
def collectDeletes (dirSizes : List Int) (rs : List DelRes) : DelTally :=
  rs.foldl
    (fun acc r =>
      if r.err then ⟨acc.deletedCount, acc.deletedSize, acc.deleteErrors + 1⟩
      else ⟨acc.deletedCount + 1, acc.deletedSize + dirSizes.getD r.index 0,
            acc.deleteErrors⟩)
    ⟨0, 0, 0⟩

/-- The first whitespace-delimited token `fmt.Scanln(&response)` reads
from the confirmation line (empty if the line is blank). -/
def firstToken (s : String) : String :=
  String.mk ((s.toList.dropWhile (fun c => c == ' ' || c == '\t')).takeWhile
    (fun c => !(c == ' ' || c == '\t')))

/-- `strings.ToLower` restricted to ASCII, which is all the comparison
against the literal `"y"` can ever distinguish. -/
def charToLower (c : Char) : Char :=
  if 65 ≤ c.toNat ∧ c.toNat ≤ 90 then Char.ofNat (c.toNat + 32) else c

/-- Lowercase a response string character by character. -/
def strToLower (s : String) : String :=
  String.mk (s.toList.map charToLower)

/-- The run configuration (the flags the orchestrator consumes). -/
structure Config where
  dryRun : Bool
  skipPrompt : Bool
  verbose : Bool
  maxWorkers : Int
deriving Repr, DecidableEq

/-- Terminal states of a run. -/
inductive Outcome where
  | fatalBadPath
  | noneFound
  | dryRunDone
  | cancelled
  | completed
deriving Repr, DecidableEq

/-- Everything a finished run reports, together with the final
filesystem. -/
structure RunReport where
  outcome : Outcome
  fs : Option Entry
  dirsFound : List (List String)
  totalSize : Int
  dirSizes : List Int
  deletedCount : Nat
  deletedSize : Int
  deleteErrors : Nat

/-- The orchestrator (`main`): validate the root (`os.Stat` +
`os.IsNotExist`: only a nonexistent root is fatal), walk, bail out when
nothing was found, size the candidates, stop after the summary in
dry-run mode, ask for confirmation unless `-y` was given (proceed only
when the lowercased response token is "y"), then delete and tally.
`root = none` models a root path that does not exist; `stdinLine` the
confirmation response; `sizeOrder`/`deleteOrder` the scheduling of the
two pools. -/
def runDelPack (cfg : Config) (root : Option Entry) (targets : List String)
    (stdinLine : String) (sizeOrder deleteOrder : List Nat) : RunReport :=
  match root with
  | none => ⟨.fatalBadPath, none, [], 0, [], 0, 0, 0⟩
  | some r =>
    let scan := scanEntry targets cfg.verbose [] r ⟨[], []⟩
    let dirs := scan.dirsToDelete
    if dirs.isEmpty then ⟨.noneFound, some r, dirs, 0, [], 0, 0, 0⟩
    else
      let st := collectSizes (sizePoolResults r dirs cfg.maxWorkers sizeOrder)
      if cfg.dryRun then
        ⟨.dryRunDone, some r, dirs, st.totalSize, st.dirSizes, 0, 0, 0⟩
      else if !cfg.skipPrompt && !(strToLower (firstToken stdinLine) == "y") then
        ⟨.cancelled, some r, dirs, st.totalSize, st.dirSizes, 0, 0, 0⟩
      else
        let del := deletePoolRun (some r) dirs cfg.maxWorkers deleteOrder
        let dt := collectDeletes st.dirSizes del.1
        ⟨.completed, del.2, dirs, st.totalSize, st.dirSizes,
          dt.deletedCount, dt.deletedSize, dt.deleteErrors⟩

/-! ## Concrete trees used to evaluate the model. -/

/-- Two candidates with distinct sizes; `dist` contains an unreadable
subdirectory, so deleting it fails while deleting `node_modules`
succeeds. -/
def bugTree : Entry := .dir "r" true
  [ .dir "node_modules" true [.file "a.txt" true 100],
    .dir "dist" true [.file "b.txt" true 200, .dir "locked" false []] ]

/-- A confirmed, prompt-skipped run on `bugTree` with four workers whose
size results arrive in reverse submission order (`dist` first). -/
def bugRun : RunReport :=
  runDelPack ⟨false, true, false, 4⟩ (some bugTree) ["node_modules", "dist"]
    "" [1, 0] [0, 1]

/-- A target directory hidden behind an unreadable directory. -/
def lockedTree : Entry :=
  .dir "r" true [.dir "locked" false [.dir "node_modules" true []]]

/-- An unreadable directory followed by a target directory. -/
def cx6Tree : Entry :=
  .dir "r" true [.dir "x" false [], .dir "node_modules" true []]

/-- A directory with one stat-failing file and one accessible file. -/
def errTree : Entry := .dir "d" true [.file "a" false 5, .file "b" true 7]

/-- An empty readable directory. -/
def ghostTree : Entry := .dir "r" true []

/-- A one-file tree for the C7 witness. -/
def w7Tree : Entry := .dir "w7" true [.file "x" true 1]

/-- A one-candidate tree for the C2 witness. -/
def wTree2 : Entry := .dir "w" true [.dir "node_modules" true [.file "f" true 3]]

/-- A one-candidate tree for the C9 runs. -/
def w9Tree : Entry := .dir "r9" true [.dir "node_modules" true [.file "f" true 10]]

/-- A one-candidate tree for the C10 witness. -/
def w10Tree : Entry := .dir "r10" true [.dir "node_modules" true [.file "f" true 4]]

/-- A tree with a nested target and two reported candidates for the C5
witness. -/
def w5Tree : Entry := .dir "r5" true
  [ .dir "node_modules" true [.dir "node_modules" true [], .file "z" true 1],
    .dir "sub" true [.dir "dist" true []] ]

/-- A one-candidate tree for the C8 witness. -/
def w8Tree : Entry := .dir "r8" true [.dir "vendor" true [.file "f" true 42]]

/-! # Theorems -/

mutual
/-- The scan walk only appends to the shared state: its effect is the pure
candidate list `cands` and, in verbose mode only, the notice list
`errPaths`. -/
theorem scanEntry_eq : ∀ (t : List String) (v : Bool) (p : List String)
    (e : Entry) (s : ScanState),
    scanEntry t v p e s =
      ⟨s.dirsToDelete ++ cands t p e,
       s.scanErrors ++ (if v then errPaths t p e else [])⟩
  | t, v, p, .file n ok sz, s => by
    cases s
    simp [scanEntry, cands, errPaths]
  | t, v, p, .dir n r cs, s => by
    cases s with
    | mk d er =>
      by_cases h1 : n ∈ t
      · simp [scanEntry, cands, errPaths, h1]
      · cases h2 : r with
        | true =>
          simpa [scanEntry, cands, errPaths, h1, h2] using
            scanChildren_eq t v p cs ⟨d, er⟩
        | false => cases v <;> simp [scanEntry, cands, errPaths, h1, h2]

/-- `scanEntry_eq` for a list of children. -/
theorem scanChildren_eq : ∀ (t : List String) (v : Bool) (p : List String)
    (cs : List Entry) (s : ScanState),
    scanChildren t v p cs s =
      ⟨s.dirsToDelete ++ candsList t p cs,
       s.scanErrors ++ (if v then errPathsList t p cs else [])⟩
  | t, v, p, [], s => by
    cases s
    simp [scanChildren, candsList, errPathsList]
  | t, v, p, c :: cs, s => by
    rw [scanChildren, scanEntry_eq, scanChildren_eq]
    cases s with
    | mk d er =>
      cases v <;> simp [candsList, errPathsList, List.append_assoc]
end

/-- C6 (amended): the walk collects a notice for exactly the inaccessible
paths it encounters when verbose mode is on and collects nothing without
it; the walk continues either way and the candidate list does not depend
on verbosity. -/
theorem delpack_C6_notices_iff_verbose (t : List String) (v : Bool) (e : Entry) :
    (scanEntry t v [] e ⟨[], []⟩).scanErrors = (if v then errPaths t [] e else []) ∧
    (scanEntry t v [] e ⟨[], []⟩).dirsToDelete = cands t [] e := by
  rw [scanEntry_eq]
  simp

/-- C6 (counterexample): on a tree with an inaccessible directory, a run
without the verbosity flag records no scan notice at all, although the
same walk with verbosity records one; the walk continues either way and
still finds the candidate that follows the inaccessible path. -/
theorem delpack_C6_silent_without_verbose :
    (scanEntry ["node_modules"] false [] cx6Tree ⟨[], []⟩).scanErrors = [] ∧
    (scanEntry ["node_modules"] true [] cx6Tree ⟨[], []⟩).scanErrors = [["x"]] ∧
    (scanEntry ["node_modules"] false [] cx6Tree ⟨[], []⟩).dirsToDelete
      = [["node_modules"]] := by
  refine ⟨rfl, rfl, rfl⟩

mutual
/-- The size walk never aborts: whatever errors it meets, it accumulates
the accessible sizes and the callback's `nil` results leave the walk's
returned error empty. -/
theorem walkSize_eq : ∀ (e : Entry) (acc : Int),
    walkSize e acc = (acc + sizeSum e, false)
  | .file n ok sz, acc => by
    cases ok <;> simp [walkSize, sizeSum]
  | .dir n r cs, acc => by
    cases r <;> simp [walkSize, sizeSum, walkSizeList_eq cs acc]

/-- `walkSize_eq` for a list of children. -/
theorem walkSizeList_eq : ∀ (cs : List Entry) (acc : Int),
    walkSizeList cs acc = (acc + sizeSumList cs, false)
  | [], acc => by simp [walkSizeList, sizeSumList]
  | c :: cs, acc => by
    rw [walkSizeList, walkSize_eq]
    simp [sizeSumList, walkSizeList_eq cs (acc + sizeSum c), Int.add_assoc]
end

/-- C4 (amended): `dirSize` never aborts early — it returns the byte sum
over all accessible non-directory entries — but it always returns a nil
error, even when traversal errors occurred, because its callback swallows
every error. -/
theorem delpack_C4_best_effort_nil_error (e : Entry) :
    dirSize e = (sizeSum e, false) := by
  rw [dirSize, walkSize_eq]
  simp

/-- C4 (counterexample): a directory containing a file whose stat fails:
the traversal encounters an error, yet `dirSize` pairs the accessible sum
with a nil error rather than the first error encountered. -/
theorem delpack_C4_error_swallowed :
    walkErrs errTree = true ∧ dirSize errTree = (7, false) := by
  refine ⟨rfl, rfl⟩

/-- C3 (amended): the run aborts before scanning if and only if the root
path does not exist; an existing root is never fatal, whatever it is. -/
theorem delpack_C3_fatal_iff_missing (cfg : Config) (root : Option Entry)
    (targets : List String) (line : String) (o1 o2 : List Nat) :
    (runDelPack cfg root targets line o1 o2).outcome = Outcome.fatalBadPath ↔
      root = none := by
  cases root with
  | none => simp [runDelPack]
  | some r =>
    simp only [runDelPack, Option.some_ne_none, iff_false]
    intro h
    split at h
    · simp at h
    · split at h
      · simp at h
      · split at h
        · simp at h
        · simp at h

/-- C3 (counterexample): a root path that exists but is a regular file is
not fatal — the run proceeds past validation and terminates with the
"no target directories found" report. -/
theorem delpack_C3_file_root_not_fatal :
    (runDelPack ⟨false, true, false, 4⟩ (some (.file "a" true 0)) ["a"]
        "" [] []).outcome = Outcome.noneFound ∧
    (runDelPack ⟨false, true, false, 4⟩ (some (.file "a" true 0)) ["a"]
        "" [] []).outcome ≠ Outcome.fatalBadPath := by
  refine ⟨rfl, by decide⟩

/-- C8: in dry-run mode the run never reaches the confirmation or the
deletion phase: the final filesystem is the initial one and nothing is
reported deleted. -/
theorem delpack_C8_dry_run_unchanged (cfg : Config) (root : Option Entry)
    (targets : List String) (line : String) (o1 o2 : List Nat)
    (h : cfg.dryRun = true) :
    (runDelPack cfg root targets line o1 o2).fs = root ∧
    (runDelPack cfg root targets line o1 o2).deletedCount = 0 ∧
    (runDelPack cfg root targets line o1 o2).deletedSize = 0 ∧
    (runDelPack cfg root targets line o1 o2).outcome ≠ Outcome.completed ∧
    (runDelPack cfg root targets line o1 o2).outcome ≠ Outcome.cancelled := by
  cases root with
  | none => simp [runDelPack]
  | some r =>
    simp only [runDelPack, h]
    split
    · simp
    · simp

/-- C8 (witness): a concrete dry run leaves the tree in place. -/
theorem delpack_C8_witness :
    (runDelPack ⟨true, true, false, 4⟩ (some w8Tree) ["vendor"] "" [0]
        [0]).fs = some w8Tree ∧
    (runDelPack ⟨true, true, false, 4⟩ (some w8Tree) ["vendor"] "" [0]
        [0]).deletedCount = 0 := by
  have h := delpack_C8_dry_run_unchanged ⟨true, true, false, 4⟩ (some w8Tree)
    ["vendor"] "" [0] [0] rfl
  exact ⟨h.1, h.2.1⟩

mutual
/-- Removing a path that does not resolve changes nothing and reports no
error, mirroring `os.RemoveAll`'s documented nil result for nonexistent
paths. -/
theorem removeAt_nonexistent : ∀ (e : Entry) (p : List String),
    e.sub p = none → removeAt e p = (some e, false)
  | e, [] => by simp [Entry.sub]
  | .file fn ok sz, _ :: _ => fun _ => by simp [removeAt]
  | .dir dn r cs, n :: rest => fun h => by
    have h' : removeAtChildren cs n rest = (cs, false) :=
      removeAtChildren_nonexistent cs n rest (by simpa [Entry.sub] using h)
    simp [removeAt, h']

/-- Child-list version of `removeAt_nonexistent`. -/
theorem removeAtChildren_nonexistent :
    ∀ (cs : List Entry) (n : String) (rest : List String),
    (match cs.find? (fun c => c.name == n) with
     | some c => c.sub rest
     | none => none) = none →
    removeAtChildren cs n rest = (cs, false)
  | [], n, rest => fun _ => by simp [removeAtChildren]
  | c :: cs', n, rest => fun h => by
    cases hc : c.name == n with
    | true =>
      simp only [List.find?, hc] at h
      simp [removeAtChildren, hc, removeAt_nonexistent c rest h]
    | false =>
      simp only [List.find?, hc] at h
      simp [removeAtChildren, hc, removeAtChildren_nonexistent cs' n rest h]
end

/-- C7 (amended): the deletion executor reports success, not failure, for
a candidate path that no longer exists when it runs, and the filesystem
is unchanged by the attempt. -/
theorem delpack_C7_nonexistent_nil (fs : Option Entry) (p : List String)
    (h : subFS fs p = none) : removeAtFS fs p = (fs, false) := by
  cases fs with
  | none => simp [removeAtFS]
  | some e =>
    simp only [subFS, Option.some_bind] at h
    simpa [removeAtFS] using removeAt_nonexistent e p h

/-- C7 (counterexample): deleting a path that does not exist under the
root yields a nil error — a success outcome, while the claim demands a
failure outcome. -/
theorem delpack_C7_vanished_reports_success :
    Entry.sub ghostTree ["ghost"] = none ∧
    removeAtFS (some ghostTree) ["ghost"] = (some ghostTree, false) :=
  ⟨rfl, rfl⟩

/-- C7 (witness): the amended claim at a concrete tree and path. -/
theorem delpack_C7_witness :
    removeAtFS (some w7Tree) ["nope"] = (some w7Tree, false) :=
  delpack_C7_nonexistent_nil (some w7Tree) ["nope"] rfl

/-- C1 (the code evaluated at the failing input): with two candidates
whose size results arrive in reverse submission order, deleting
`node_modules` (sized 100 in the size phase) succeeds while deleting
`dist` (sized 200) fails, and the freed-bytes tally reports 200 — the
entry at the successful candidate's *index* in the arrival-ordered
`dirSizes` — instead of the 100 bytes the size phase computed for the
candidate that was actually deleted.  The successfully deleted path is
indeed gone from the final filesystem. -/
theorem delpack_C1_bug_eval :
    bugRun.outcome = Outcome.completed ∧
    bugRun.dirsFound = [["node_modules"], ["dist"]] ∧
    bugRun.dirSizes = [200, 100] ∧
    (dirSizeAt bugTree ["node_modules"]).1 = 100 ∧
    (dirSizeAt bugTree ["dist"]).1 = 200 ∧
    bugRun.deletedCount = 1 ∧
    bugRun.deleteErrors = 1 ∧
    bugRun.deletedSize = 200 ∧
    ¬ bugRun.deletedSize = (dirSizeAt bugTree ["node_modules"]).1 ∧
    (subFS bugRun.fs ["node_modules"]).isNone = true ∧
    (subFS bugRun.fs ["dist"]).isSome = true := by
  decide

/-- C9 (amended): with the prompt shown, the run is cancelled exactly when
the first whitespace-delimited token of the response, lowercased, differs
from "y", and proceeds to deletion exactly when it equals "y" — so a
response such as "Y es", whose first token lowercases to "y", proceeds. -/
theorem delpack_C9_confirm_iff (cfg : Config) (r : Entry)
    (targets : List String) (line : String) (o1 o2 : List Nat)
    (hp : cfg.skipPrompt = false) (hd : cfg.dryRun = false)
    (hne : (scanEntry targets cfg.verbose [] r ⟨[], []⟩).dirsToDelete ≠ []) :
    ((runDelPack cfg (some r) targets line o1 o2).outcome = Outcome.cancelled ↔
      ¬ strToLower (firstToken line) = "y") ∧
    ((runDelPack cfg (some r) targets line o1 o2).outcome = Outcome.completed ↔
      strToLower (firstToken line) = "y") := by
  have hne' :
      ((scanEntry targets cfg.verbose [] r ⟨[], []⟩).dirsToDelete).isEmpty
        = false := by
    rw [List.isEmpty_eq_false]
    exact hne
  simp only [runDelPack, hne', hd, hp, Bool.false_eq_true, if_false,
    Bool.not_false, Bool.true_and]
  cases hq : strToLower (firstToken line) == "y" with
  | true =>
    have : strToLower (firstToken line) = "y" := eq_of_beq hq
    simp [this]
  | false =>
    have : ¬ strToLower (firstToken line) = "y" := ne_of_beq_false hq
    simp [hq, this]

/-- C9 (counterexample): the response "Y es" is not a cancellation — its
first token "Y" lowercases to "y", so the run proceeds and deletes the
candidate, while the claim lists "Y es" as a terminal cancellation. -/
theorem delpack_C9_proceeds_on_Y_es :
    (runDelPack ⟨false, false, false, 4⟩ (some w9Tree) ["node_modules"]
        "Y es" [0] [0]).outcome = Outcome.completed ∧
    (runDelPack ⟨false, false, false, 4⟩ (some w9Tree) ["node_modules"]
        "Y es" [0] [0]).deletedCount = 1 := by
  exact ⟨rfl, rfl⟩

/-- C9 (witness): the amended claim at a concrete input — "yes" does not
proceed to deletion. -/
theorem delpack_C9_witness :
    ¬ (runDelPack ⟨false, false, false, 4⟩ (some w9Tree) ["node_modules"]
        "yes" [0] [0]).outcome = Outcome.completed := by
  have h := delpack_C9_confirm_iff ⟨false, false, false, 4⟩ w9Tree
    ["node_modules"] "yes" [0] [0] rfl rfl (by decide)
  intro hc
  exact absurd (h.2.mp hc) (by decide)

/-- C10: a worker count of zero or negative spawns no workers in either
pool: both phases produce empty result lists, the reported total size is
0 and the size list empty, nothing is deleted, and the run (total by
construction) still reaches its final completed report. -/
theorem delpack_C10_zero_workers (cfg : Config) (r : Entry)
    (targets : List String) (line : String) (o1 o2 : List Nat)
    (hw : cfg.maxWorkers ≤ 0)
    (hne : (scanEntry targets cfg.verbose [] r ⟨[], []⟩).dirsToDelete ≠ [])
    (hd : cfg.dryRun = false) (hy : cfg.skipPrompt = true) :
    (runDelPack cfg (some r) targets line o1 o2).outcome = Outcome.completed ∧
    (runDelPack cfg (some r) targets line o1 o2).totalSize = 0 ∧
    (runDelPack cfg (some r) targets line o1 o2).dirSizes = [] ∧
    (runDelPack cfg (some r) targets line o1 o2).deletedCount = 0 ∧
    (runDelPack cfg (some r) targets line o1 o2).deletedSize = 0 ∧
    (runDelPack cfg (some r) targets line o1 o2).fs = some r := by
  have hne' :
      ((scanEntry targets cfg.verbose [] r ⟨[], []⟩).dirsToDelete).isEmpty
        = false := by
    rw [List.isEmpty_eq_false]
    exact hne
  simp [runDelPack, hne', hd, hy, sizePoolResults, deletePoolRun, hw,
    collectSizes, collectDeletes]

/-- A file entry never matches: it is not a directory and nothing resolves
below it. -/
theorem isMatchedDirAt_file (t : List String) (n : String) (ok : Bool)
    (sz : Int) : ∀ s, isMatchedDirAt t (.file n ok sz) s = false
  | [] => by simp [isMatchedDirAt, Entry.sub, Entry.isDir]
  | _ :: _ => by simp [isMatchedDirAt, Entry.sub]

/-- Matching at the empty path is matching the entry itself. -/
theorem isMatchedDirAt_nil (t : List String) (e : Entry) :
    isMatchedDirAt t e [] = (e.isDir && t.contains e.name) := by
  simp [isMatchedDirAt, Entry.sub]

/-- The empty path has no proper initial segment. -/
theorem clearTo_nil (t : List String) (e : Entry) : clearTo t e [] = true := by
  cases e <;> simp [clearTo]

/-- Matching below a directory goes through the child `find?` selects. -/
theorem isMatchedDirAt_cons_some {cs : List Entry} {m : String} {c : Entry}
    (hf : cs.find? (fun x => x.name == m) = some c) (t : List String)
    (n : String) (r : Bool) (rest : List String) :
    isMatchedDirAt t (.dir n r cs) (m :: rest) = isMatchedDirAt t c rest := by
  simp [isMatchedDirAt, Entry.sub, hf]

/-- Without a child of the right name nothing matches below. -/
theorem isMatchedDirAt_cons_none {cs : List Entry} {m : String}
    (hf : cs.find? (fun x => x.name == m) = none) (t : List String)
    (n : String) (r : Bool) (rest : List String) :
    isMatchedDirAt t (.dir n r cs) (m :: rest) = false := by
  simp [isMatchedDirAt, Entry.sub, hf]

/-- `clearTo` below a directory, through the child `find?` selects. -/
theorem clearTo_cons_some {cs : List Entry} {m : String} {c : Entry}
    (hf : cs.find? (fun x => x.name == m) = some c) (t : List String)
    (n : String) (r : Bool) (rest : List String) :
    clearTo t (.dir n r cs) (m :: rest) =
      (!t.contains n && r && clearTo t c rest) := by
  simp [clearTo, hf]

/-- `clearTo` fails when no child of the right name exists. -/
theorem clearTo_cons_none {cs : List Entry} {m : String}
    (hf : cs.find? (fun x => x.name == m) = none) (t : List String)
    (n : String) (r : Bool) (rest : List String) :
    clearTo t (.dir n r cs) (m :: rest) = false := by
  simp [clearTo, hf]

/-- Well-formedness of a child list passes to its members. -/
theorem wfList_mem {cs : List Entry} {c : Entry}
    (hwl : Entry.wfList cs = true) (hc : c ∈ cs) : Entry.wfB c = true := by
  induction cs with
  | nil => simp at hc
  | cons a cs ih =>
    simp only [Entry.wfList, Bool.and_eq_true] at hwl
    rcases List.mem_cons.mp hc with rfl | hc'
    · exact hwl.1
    · exact ih hwl.2 hc'

/-- Well-formedness of a directory passes to its children. -/
theorem wfB_child {n : String} {r : Bool} {cs : List Entry} {c : Entry}
    (hw : Entry.wfB (.dir n r cs) = true) (hc : c ∈ cs) :
    Entry.wfB c = true := by
  simp only [Entry.wfB, Bool.and_eq_true] at hw
  exact wfList_mem hw.2 hc

/-- With distinct sibling names, looking a member's own name up finds that
member. -/
theorem find?_name_eq_self {cs : List Entry} {c : Entry}
    (hnd : nodupNames (cs.map Entry.name) = true) (hc : c ∈ cs) :
    cs.find? (fun x => x.name == c.name) = some c := by
  induction cs with
  | nil => simp at hc
  | cons a cs ih =>
    simp only [List.map_cons, nodupNames, Bool.and_eq_true,
      Bool.not_eq_true'] at hnd
    rcases List.mem_cons.mp hc with rfl | hc'
    · simp [List.find?]
    · have hmem : c.name ∈ cs.map Entry.name := List.mem_map_of_mem _ hc'
      have hne : a.name ≠ c.name := by
        intro hh
        have hcont : (cs.map Entry.name).contains c.name = true := by
          simpa [List.elem_iff] using hmem
        rw [hh] at hnd
        exact Bool.false_ne_true (hnd.1.symm.trans hcont)
      simp only [List.find?, beq_false_of_ne hne]
      exact ih hnd.2 hc'

/-- A path in a child's candidate list is in the parent's. -/
theorem mem_candsList_of_child {t p : List String} {cs : List Entry}
    {c : Entry} (hc : c ∈ cs) {q : List String}
    (hq : q ∈ cands t (p ++ [c.name]) c) : q ∈ candsList t p cs := by
  induction cs with
  | nil => simp at hc
  | cons a cs ih =>
    simp only [candsList, List.mem_append]
    rcases List.mem_cons.mp hc with rfl | hc'
    · exact Or.inl hq
    · exact Or.inr (ih hc')

mutual
/-- Soundness of the candidate list: every reported path is a matched
directory all of whose proper ancestors are readable, unmatched
directories. -/
theorem cands_sound : ∀ (t p : List String) (e : Entry),
    Entry.wfB e = true → ∀ q, q ∈ cands t p e →
    ∃ s, q = p ++ s ∧ isMatchedDirAt t e s = true ∧ clearTo t e s = true
  | t, p, .file n ok sz, _, q => by simp [cands]
  | t, p, .dir n r cs, hw, q => by
    have hnd : nodupNames (cs.map Entry.name) = true := by
      simp only [Entry.wfB, Bool.and_eq_true] at hw
      exact hw.1
    have hwl : Entry.wfList cs = true := by
      simp only [Entry.wfB, Bool.and_eq_true] at hw
      exact hw.2
    by_cases h1 : n ∈ t
    · intro hq
      simp [cands, h1] at hq
      subst hq
      refine ⟨[], by simp, ?_, clearTo_nil t _⟩
      rw [isMatchedDirAt_nil]
      simp [Entry.isDir, Entry.name, h1]
    · by_cases h2 : r = true
      · intro hq
        simp [cands, h1, h2] at hq
        obtain ⟨c, hc, s', rfl, hm, hcl⟩ :=
          candsList_sound t p cs hnd hwl q hq
        have hf := find?_name_eq_self hnd hc
        refine ⟨c.name :: s', rfl, ?_, ?_⟩
        · rw [isMatchedDirAt_cons_some hf]
          exact hm
        · rw [clearTo_cons_some hf]
          simp [h1, h2, hcl]
      · intro hq
        simp [cands, h1, h2] at hq

/-- Child-list version of `cands_sound`. -/
theorem candsList_sound : ∀ (t p : List String) (cs : List Entry),
    nodupNames (cs.map Entry.name) = true → Entry.wfList cs = true →
    ∀ q, q ∈ candsList t p cs →
    ∃ c, c ∈ cs ∧ ∃ s, q = p ++ (c.name :: s) ∧
      isMatchedDirAt t c s = true ∧ clearTo t c s = true
  | t, p, [], _, _, q => by simp [candsList]
  | t, p, c :: cs', hnd, hwl, q => by
    have hwb : Entry.wfB c = true := by
      simp only [Entry.wfList, Bool.and_eq_true] at hwl
      exact hwl.1
    have hwl' : Entry.wfList cs' = true := by
      simp only [Entry.wfList, Bool.and_eq_true] at hwl
      exact hwl.2
    have hnd' : nodupNames (cs'.map Entry.name) = true := by
      simp only [List.map_cons, nodupNames, Bool.and_eq_true] at hnd
      exact hnd.2
    intro hq
    simp only [candsList, List.mem_append] at hq
    rcases hq with hq | hq
    · obtain ⟨s, rfl, hm, hcl⟩ := cands_sound t (p ++ [c.name]) c hwb q hq
      exact ⟨c, by simp, s, by simp, hm, hcl⟩
    · obtain ⟨c', hc', s, rfl, hm, hcl⟩ :=
        candsList_sound t p cs' hnd' hwl' q hq
      exact ⟨c', by simp [hc'], s, rfl, hm, hcl⟩
end

/-- Completeness of the candidate list: every matched directory whose
proper ancestors are all readable, unmatched directories is reported. -/
theorem cands_complete : ∀ (s t : List String) (e : Entry),
    Entry.wfB e = true → isMatchedDirAt t e s = true →
    clearTo t e s = true → ∀ p, (p ++ s) ∈ cands t p e
  | [], t, e, _, hm, _, p => by
    rw [isMatchedDirAt_nil] at hm
    cases e with
    | file _ _ _ => simp [Entry.isDir] at hm
    | dir n r cs =>
      have hm' : n ∈ t := by
        simpa [Entry.isDir, Entry.name] using hm
      simp [cands, hm']
  | m :: rest, t, e, hw, hm, hcl, p => by
    cases e with
    | file _ _ _ => simp [clearTo] at hcl
    | dir n r cs =>
      cases hf : cs.find? (fun x => x.name == m) with
      | none =>
        rw [clearTo_cons_none hf] at hcl
        exact absurd hcl (by simp)
      | some c =>
        rw [clearTo_cons_some hf] at hcl
        rw [isMatchedDirAt_cons_some hf] at hm
        simp only [Bool.and_eq_true, Bool.not_eq_true'] at hcl
        obtain ⟨⟨h1, h2⟩, h3⟩ := hcl
        have hc : c ∈ cs := List.mem_of_find?_eq_some hf
        have hcn : c.name = m := by
          have := List.find?_some hf
          simpa using this
        have hwb : Entry.wfB c = true := wfB_child hw hc
        have hrec := cands_complete rest t c hwb hm h3 (p ++ [m])
        have hmem : (p ++ (m :: rest)) ∈ candsList t p cs := by
          apply mem_candsList_of_child hc
          rw [hcn]
          simpa [List.append_assoc] using hrec
        have h1' : n ∉ t := by
          intro hmem'
          have : t.contains n = true := by simpa [List.elem_iff] using hmem'
          exact Bool.false_ne_true (h1.symm.trans this)
        simp [cands, h1', h2, hmem]

mutual
/-- The candidate list of a well-formed tree has no duplicates. -/
theorem cands_nodup : ∀ (t p : List String) (e : Entry),
    Entry.wfB e = true → (cands t p e).Nodup
  | t, p, .file n ok sz, _ => by simp [cands]
  | t, p, .dir n r cs, hw => by
    have hnd : nodupNames (cs.map Entry.name) = true := by
      simp only [Entry.wfB, Bool.and_eq_true] at hw
      exact hw.1
    have hwl : Entry.wfList cs = true := by
      simp only [Entry.wfB, Bool.and_eq_true] at hw
      exact hw.2
    by_cases h1 : n ∈ t
    · simp [cands, h1]
    · by_cases h2 : r = true
      · simpa [cands, h1, h2] using candsList_nodup t p cs hnd hwl
      · simp [cands, h1, h2]

/-- Child-list version of `cands_nodup`: sibling candidate lists are
disjoint because each starts with its own child's name. -/
theorem candsList_nodup : ∀ (t p : List String) (cs : List Entry),
    nodupNames (cs.map Entry.name) = true → Entry.wfList cs = true →
    (candsList t p cs).Nodup
  | t, p, [], _, _ => by simp [candsList]
  | t, p, c :: cs', hnd, hwl => by
    have hwb : Entry.wfB c = true := by
      simp only [Entry.wfList, Bool.and_eq_true] at hwl
      exact hwl.1
    have hwl' : Entry.wfList cs' = true := by
      simp only [Entry.wfList, Bool.and_eq_true] at hwl
      exact hwl.2
    have hnd' : nodupNames (cs'.map Entry.name) = true := by
      simp only [List.map_cons, nodupNames, Bool.and_eq_true] at hnd
      exact hnd.2
    have hhead : c.name ∉ cs'.map Entry.name := by
      simp only [List.map_cons, nodupNames, Bool.and_eq_true,
        Bool.not_eq_true'] at hnd
      intro hmem
      have hcont : (cs'.map Entry.name).contains c.name = true := by
        simpa [List.elem_iff] using hmem
      exact Bool.false_ne_true (hnd.1.symm.trans hcont)
    simp only [candsList]
    refine List.Nodup.append (cands_nodup t (p ++ [c.name]) c hwb)
      (candsList_nodup t p cs' hnd' hwl') ?_
    intro q hq1 hq2
    obtain ⟨s, hqs, -, -⟩ := cands_sound t (p ++ [c.name]) c hwb q hq1
    obtain ⟨c', hc', s', hqs', -, -⟩ :=
      candsList_sound t p cs' hnd' hwl' q hq2
    have heq : p ++ (c.name :: s) = p ++ (c'.name :: s') := by
      have h1 : q = p ++ (c.name :: s) := by
        simpa [List.append_assoc] using hqs
      rw [← h1, hqs']
    have hinj := List.append_cancel_left heq
    injection hinj with hname _
    apply hhead
    rw [hname]
    exact List.mem_map_of_mem _ hc'

end

/-- Along a path every proper ancestor allowed by `clearTo` is an
unmatched directory. -/
theorem clearTo_ancestor : ∀ (q t : List String) (e : Entry),
    clearTo t e q = true → ∀ p, pathLE p q = true → p ≠ q →
    isMatchedDirAt t e p = false
  | [], t, e, _, p, hle, hne => by
    cases p with
    | nil => exact absurd rfl hne
    | cons a p' => simp [pathLE] at hle
  | m :: rest, t, e, hcl, p, hle, hne => by
    cases e with
    | file fn ok sz => simp [clearTo] at hcl
    | dir n r cs =>
      cases hf : cs.find? (fun x => x.name == m) with
      | none =>
        rw [clearTo_cons_none hf] at hcl
        exact absurd hcl (by simp)
      | some c =>
        rw [clearTo_cons_some hf] at hcl
        simp only [Bool.and_eq_true, Bool.not_eq_true'] at hcl
        obtain ⟨⟨h1, -⟩, h3⟩ := hcl
        cases p with
        | nil =>
          rw [isMatchedDirAt_nil]
          simp only [Entry.isDir, Entry.name, Bool.true_and]
          simpa using h1
        | cons a p' =>
          simp only [pathLE, Bool.and_eq_true] at hle
          have ham : a = m := eq_of_beq hle.1
          subst ham
          rw [isMatchedDirAt_cons_some hf]
          refine clearTo_ancestor rest t c h3 p' hle.2 ?_
          intro hh
          exact hne (by rw [hh])

/-- C5 (amended): over well-formed trees, the scan reports exactly the
target-named directories every proper ancestor of which is a readable,
unmatched directory — so a matched directory beneath another matched
directory, or beneath an unreadable one, is not reported; each reported
path appears exactly once (the list has no duplicates), and no reported
path lies beneath another reported path. -/
theorem delpack_C5_reported_once_pruned (t : List String) (v : Bool)
    (e : Entry) (hwf : Entry.wfB e = true) :
    (∀ q, q ∈ (scanEntry t v [] e ⟨[], []⟩).dirsToDelete ↔
        (isMatchedDirAt t e q && clearTo t e q) = true) ∧
    ((scanEntry t v [] e ⟨[], []⟩).dirsToDelete).Nodup ∧
    (∀ p q, p ∈ (scanEntry t v [] e ⟨[], []⟩).dirsToDelete →
        q ∈ (scanEntry t v [] e ⟨[], []⟩).dirsToDelete →
        pathLE p q = true → p = q) := by
  have hsc : (scanEntry t v [] e ⟨[], []⟩).dirsToDelete = cands t [] e := by
    rw [scanEntry_eq]
    simp
  rw [hsc]
  refine ⟨?_, cands_nodup t [] e hwf, ?_⟩
  · intro q
    constructor
    · intro hq
      obtain ⟨s, hqs, hm, hcl⟩ := cands_sound t [] e hwf q hq
      simp only [List.nil_append] at hqs
      subst hqs
      simp [hm, hcl]
    · intro hq
      obtain ⟨hm, hcl⟩ : isMatchedDirAt t e q = true ∧ clearTo t e q = true := by
        simpa [Bool.and_eq_true] using hq
      simpa using cands_complete q t e hwf hm hcl []
  · intro p q hp hq hle
    by_contra hne
    obtain ⟨sp, hps, hmp, _⟩ := cands_sound t [] e hwf p hp
    obtain ⟨sq, hqs, _, hclq⟩ := cands_sound t [] e hwf q hq
    simp only [List.nil_append] at hps hqs
    subst hps
    subst hqs
    have hfalse := clearTo_ancestor q t e hclq p hle hne
    rw [hfalse] at hmp
    simp at hmp

/-- C5 (counterexample): a target-named directory behind an unreadable
directory is a directory whose base name is in the target set and which
lies beneath no reported directory, yet the walk reports nothing at all
(count 0, not exactly once). -/
theorem delpack_C5_hidden_target_not_reported :
    isMatchedDirAt ["node_modules"] lockedTree ["locked", "node_modules"]
      = true ∧
    (scanEntry ["node_modules"] true [] lockedTree ⟨[], []⟩).dirsToDelete
      = [] :=
  ⟨rfl, rfl⟩

/-- C5 (witness): the amended claim at a concrete tree with a nested
target directory. -/
theorem delpack_C5_witness :
    Entry.wfB w5Tree = true ∧
    ((scanEntry ["node_modules", "dist"] false [] w5Tree
        ⟨[], []⟩).dirsToDelete).Nodup ∧
    (["node_modules"] ∈ (scanEntry ["node_modules", "dist"] false [] w5Tree
        ⟨[], []⟩).dirsToDelete ↔
      (isMatchedDirAt ["node_modules", "dist"] w5Tree ["node_modules"] &&
        clearTo ["node_modules", "dist"] w5Tree ["node_modules"]) = true) := by
  have h := delpack_C5_reported_once_pruned ["node_modules", "dist"] false
    w5Tree (by decide)
  exact ⟨by decide, h.2.1, h.1 ["node_modules"]⟩

/-- The path a size worker reports is the path it was given. -/
theorem sizeResultFor_path (r : Entry) (p : List String) :
    (sizeResultFor r p).path = p := by
  cases h : (dirSizeAt r p).2 <;> simp [sizeResultFor, h]

/-- Collecting the entries of `l` over the range of its positions is
mapping over `l`. -/
theorem filterMap_range_getElem {α β : Type} (l : List α) (g : α → β) :
    (List.range l.length).filterMap (fun i => (l[i]?).map g) = l.map g := by
  induction l with
  | nil => simp
  | cons a l ih =>
    rw [List.length_cons, List.range_succ_eq_map, List.filterMap_cons]
    simp only [List.getElem?_cons_zero, Option.map_some']
    rw [List.filterMap_map]
    have hfun : ((fun i => ((a :: l)[i]?).map g) ∘ Nat.succ)
        = (fun i => (l[i]?).map g) := by
      funext i
      simp
    rw [hfun, ih, List.map_cons]

/-- With one or more workers the size results are a permutation of the
per-candidate results. -/
theorem sizePool_perm (r : Entry) (dirs : List (List String)) (w : Int)
    (hw : ¬ w ≤ 0) (o1 : List Nat) (h1 : o1.Perm (List.range dirs.length)) :
    (sizePoolResults r dirs w o1).Perm (dirs.map (sizeResultFor r)) := by
  rw [sizePoolResults, if_neg hw]
  have hp := h1.filterMap (fun i => (dirs[i]?).map (sizeResultFor r))
  rw [filterMap_range_getElem] at hp
  exact hp

/-- No per-candidate result is tagged with a path outside the list. -/
theorem filter_map_path_nil (r : Entry) {l : List (List String)}
    {d : List String} (hd : d ∉ l) :
    (l.map (sizeResultFor r)).filter (fun rr => rr.path == d) = [] := by
  induction l with
  | nil => simp
  | cons a l ih =>
    have hne : a ≠ d := by
      intro hh
      exact hd (hh ▸ List.mem_cons_self a l)
    simp only [List.map_cons, List.filter_cons, sizeResultFor_path,
      beq_false_of_ne hne, Bool.false_eq_true, if_false]
    exact ih (fun hh => hd (List.mem_cons_of_mem _ hh))

/-- With distinct candidate paths, filtering the per-candidate results on
one path keeps exactly that candidate's result. -/
theorem filter_map_path_of_mem (r : Entry) {dirs : List (List String)}
    {d : List String} (hd : d ∈ dirs) (hnd : dirs.Nodup) :
    (dirs.map (sizeResultFor r)).filter (fun rr => rr.path == d) =
      [sizeResultFor r d] := by
  induction dirs with
  | nil => simp at hd
  | cons a l ih =>
    have hal : a ∉ l := (List.nodup_cons.mp hnd).1
    rcases List.mem_cons.mp hd with rfl | hd'
    · simp only [List.map_cons, List.filter_cons, sizeResultFor_path,
        beq_self_eq_true, if_true]
      rw [filter_map_path_nil r hal]
    · have hne : a ≠ d := by
        intro hh
        exact hal (hh ▸ hd')
      simp only [List.map_cons, List.filter_cons, sizeResultFor_path,
        beq_false_of_ne hne, Bool.false_eq_true, if_false]
      exact ih hd' (List.nodup_cons.mp hnd).2

/-- The indices the delete workers report are exactly the submitted valid
positions, in schedule order. -/
theorem runDeletes_indices (dirs : List (List String)) :
    ∀ (fs : Option Entry) (order : List Nat),
    ((runDeletes dirs fs order).1).map (fun rr => rr.index) =
      order.filter (fun i => decide (i < dirs.length))
  | fs, [] => by simp [runDeletes]
  | fs, i :: rest => by
    cases hd : dirs[i]? with
    | none =>
      have hlen : ¬ i < dirs.length := by
        simpa using List.getElem?_eq_none_iff.mp hd
      simp [runDeletes, hd, runDeletes_indices dirs fs rest, hlen]
    | some p =>
      have hlen : i < dirs.length := by
        by_contra hge
        rw [List.getElem?_eq_none_iff.mpr (by omega)] at hd
        exact Option.noConfusion hd
      simp [runDeletes, hd, runDeletes_indices dirs _ rest, hlen]

/-- Filtering tagged results on an index counts that index among the
tags. -/
theorem filter_index_eq (rs : List DelRes) (i : Nat) :
    (rs.filter (fun rr => rr.index == i)).length =
      (rs.map (fun rr => rr.index)).count i := by
  induction rs with
  | nil => simp
  | cons a rs ih =>
    cases h : a.index == i with
    | true => simp [List.filter_cons, h, List.count_cons, ih]
    | false => simp [List.filter_cons, h, List.count_cons, ih]

/-- C2: with any worker count W >= 1 and any arrival order, each pool
produces exactly one result per submitted item, correctly paired with the
item's identity: a size result carries the path it was computed for (and
with distinct candidate paths the result for candidate i is recoverable
from the result set by its path, independently of arrival order), and a
delete result carries the index of its candidate, with exactly one result
per index. -/
theorem delpack_C2_pool_pairing (r : Entry) (dirs : List (List String))
    (w : Int) (fs0 : Option Entry) (o1 o2 : List Nat)
    (hw : 1 ≤ w) (h1 : o1.Perm (List.range dirs.length))
    (h2 : o2.Perm (List.range dirs.length)) (hnd : dirs.Nodup) :
    ((sizePoolResults r dirs w o1).length = dirs.length ∧
      ∀ i, (h : i < dirs.length) →
        (sizePoolResults r dirs w o1).filter
            (fun rr => rr.path == dirs[i]) = [sizeResultFor r dirs[i]]) ∧
    (((deletePoolRun fs0 dirs w o2).1).length = dirs.length ∧
      ∀ i, i < dirs.length →
        ∃ b, ((deletePoolRun fs0 dirs w o2).1).filter
            (fun rr => rr.index == i) = [⟨i, b⟩]) := by
  have hw' : ¬ w ≤ 0 := by omega
  have hperm := sizePool_perm r dirs w hw' o1 h1
  have hall : ∀ j ∈ o2, decide (j < dirs.length) = true := by
    intro j hj
    have hjr : j ∈ List.range dirs.length := h2.mem_iff.mp hj
    simpa using List.mem_range.mp hjr
  have hfs : o2.filter (fun j => decide (j < dirs.length)) = o2 :=
    List.filter_eq_self.mpr hall
  have hmap := runDeletes_indices dirs fs0 o2
  refine ⟨⟨?_, ?_⟩, ?_, ?_⟩
  · rw [hperm.length_eq, List.length_map]
  · intro i h
    have hfil := hperm.filter (fun rr => rr.path == dirs[i])
    rw [filter_map_path_of_mem r (List.getElem_mem h) hnd] at hfil
    exact List.perm_singleton.mp hfil
  · rw [deletePoolRun, if_neg hw']
    have hlen := congrArg List.length hmap
    rw [List.length_map, hfs] at hlen
    rw [hlen, h2.length_eq, List.length_range]
  · intro i hi
    rw [deletePoolRun, if_neg hw']
    have hcount :
        ((runDeletes dirs fs0 o2).1.map (fun rr => rr.index)).count i = 1 := by
      rw [hmap, hfs, h2.count_eq]
      exact List.count_eq_one_of_mem (List.nodup_range _)
        (List.mem_range.mpr hi)
    have hlen1 :
        ((runDeletes dirs fs0 o2).1.filter
          (fun rr => rr.index == i)).length = 1 := by
      rw [filter_index_eq]
      exact hcount
    obtain ⟨x, hx⟩ := List.length_eq_one.mp hlen1
    have hxmem : x ∈ (runDeletes dirs fs0 o2).1.filter
        (fun rr => rr.index == i) := by
      rw [hx]
      exact List.mem_singleton.mpr rfl
    have hxi : x.index = i := by
      have := (List.mem_filter.mp hxmem).2
      simpa using this
    refine ⟨x.err, ?_⟩
    rw [hx]
    obtain ⟨idx, err⟩ := x
    cases hxi
    rfl

/-- C2 (witness): both pools at a concrete one-candidate input. -/
theorem delpack_C2_witness :
    (sizePoolResults wTree2 [["node_modules"]] 1 [0]).length = 1 ∧
    ((deletePoolRun (some wTree2) [["node_modules"]] 1 [0]).1).length = 1 := by
  have h := delpack_C2_pool_pairing wTree2 [["node_modules"]] 1 (some wTree2)
    [0] [0] (by decide) (by decide) (by decide) (by decide)
  exact ⟨h.1.1, h.2.1⟩

/-- C10 (witness): a concrete run with zero workers. -/
theorem delpack_C10_witness :
    (runDelPack ⟨false, true, false, 0⟩ (some w10Tree) ["node_modules"] ""
        [0] [0]).outcome = Outcome.completed ∧
    (runDelPack ⟨false, true, false, 0⟩ (some w10Tree) ["node_modules"] ""
        [0] [0]).totalSize = 0 ∧
    (runDelPack ⟨false, true, false, 0⟩ (some w10Tree) ["node_modules"] ""
        [0] [0]).fs = some w10Tree := by
  have h := delpack_C10_zero_workers ⟨false, true, false, 0⟩ w10Tree
    ["node_modules"] "" [0] [0] (by decide) (by decide) rfl rfl
  exact ⟨h.1, h.2.1, h.2.2.2.2.2⟩

end DelPack
